import Mathlib

set_option autoImplicit false
set_option linter.unusedVariables false

/-
  Shallow embedding of the Avian boot-image writer (src/bootimage.cpp).

  The writer transcribes a host (build) object graph into a target-format
  heap image.  We model the pure computations of the source file directly:
  machine unsigned integers become Nat with explicit truncation (% 2 ^ 32,
  % 2 ^ w) exactly where the C code narrows; VM collaborator routines that
  live outside this file (targetSize of a concrete object, instanceOf,
  the field transcoder's byte shuffling) appear as explicit function
  parameters, mirroring how the source calls them through the runtime.
-/

namespace Avian

/-- ceiling division as defined in the runtime headers: (x + n - 1) / n. -/
def ceiling (x n : Nat) : Nat := (x + n - 1) / n

/-- Result of the source's alignment idiom, a while loop incrementing
    off until off % size == 0. -/
def alignUp (off size : Nat) : Nat := off + (size - off % size) % size

/-- The Type enumeration of bootimage.cpp (Type_none .. Type_array). -/
inductive Ty where
  | tnone
  | object
  | int8
  | uint8
  | int16
  | uint16
  | int32
  | uint32
  | intptr
  | uintptr
  | int64
  | int64pad
  | uint64
  | float
  | double
  | doublepad
  | word
  | array
  deriving DecidableEq, Repr

/-- Field record: a (type, build byte offset, target byte offset) triple. -/
structure Field where
  type : Ty
  offset : Nat
  targetOffset : Nat
  deriving DecidableEq, Repr

/-- TypeMap::Kind. -/
inductive Kind where
  | NormalKind
  | SingletonKind
  | PoolKind
  deriving DecidableEq, Repr

/-- TypeMap: the layout descriptor built per class / singleton / pool.
    targetFixedOffsets is the byte-offset-indexed lookup table that the
    source stores after the TypeMap header (zero-initialised byte array of
    buildFixedSizeInWords * BytesPerWord entries); fixedFields is the
    Field array following it. -/
structure TypeMap where
  buildFixedSizeInWords : Nat
  targetFixedSizeInWords : Nat
  fixedFieldCount : Nat
  buildArrayElementSizeInBytes : Nat
  targetArrayElementSizeInBytes : Nat
  arrayElementType : Ty
  kind : Kind
  targetFixedOffsets : List Nat
  fixedFields : List Field
  deriving DecidableEq, Repr

/-- The shared builder loop body: each iteration executes
    map->targetFixedOffsets()[f.offset] = f.targetOffset
    for the fields in order (later writes win, as in the source). -/
def storeOffsets : List Field → List Nat → List Nat
  | [], tbl => tbl
  | f :: rest, tbl => storeOffsets rest (tbl.set f.offset f.targetOffset)

/-- Construct a TypeMap the way every builder path does: check the
    expect(buildOffset < buildFixedSizeInWords * BytesPerWord) guard for
    each field, fill the offset table (initially all zero, as the backing
    byte array is freshly allocated) and record the Field list. -/
def mkTypeMap (bpw buildW targetW : Nat) (kind : Kind)
    (bArr tArr : Nat) (aty : Ty) (fields : List Field) : Option TypeMap :=
  if fields.all (fun f => decide (f.offset < buildW * bpw)) then
    some { buildFixedSizeInWords := buildW
           targetFixedSizeInWords := targetW
           fixedFieldCount := fields.length
           buildArrayElementSizeInBytes := bArr
           targetArrayElementSizeInBytes := tArr
           arrayElementType := aty
           kind := kind
           targetFixedOffsets := storeOffsets fields (List.replicate (buildW * bpw) 0)
           fixedFields := fields }
  else Option.none

/-- The §8 invariant, decidably: every field's build offset looks up its
    own target offset in the table. -/
def offsetsConsistent (m : TypeMap) : Bool :=
  m.fixedFields.all (fun f => m.targetFixedOffsets.getD f.offset 0 == f.targetOffset)

/-! ### Constant pool TypeMap builder (makeCodeImage, first part) -/

/-- Class-file constant pool tags distinguished by the parser switch. -/
inductive CPTag where
  | CClass
  | CString
  | CInteger
  | CFloat
  | CNameAndType
  | CFieldref
  | CMethodref
  | CInterfaceMethodref
  | CLong
  | CDouble
  | CUtf8
  | COther
  deriving DecidableEq, Repr

/-- Pool slot types one constant-pool entry contributes, per the parser
    switch; COther models the default: abort(t) branch. -/
def cpSlots : CPTag → Option (List Ty)
  | CPTag.CClass => some [Ty.object]
  | CPTag.CString => some [Ty.object]
  | CPTag.CInteger => some [Ty.int32]
  | CPTag.CFloat => some [Ty.int32]
  | CPTag.CNameAndType => some [Ty.object]
  | CPTag.CFieldref => some [Ty.object]
  | CPTag.CMethodref => some [Ty.object]
  | CPTag.CInterfaceMethodref => some [Ty.object]
  | CPTag.CLong => some [Ty.int64, Ty.int64pad]
  | CPTag.CDouble => some [Ty.double, Ty.doublepad]
  | CPTag.CUtf8 => some [Ty.object]
  | CPTag.COther => Option.none

/-- All pool slot types of a tag sequence, in order. -/
def poolSlotTypes : List CPTag → Option (List Ty)
  | [] => some []
  | t :: rest =>
    match cpSlots t, poolSlotTypes rest with
    | some s, some ss => some (s ++ ss)
    | _, _ => Option.none

/-- The pool builder field loop: field i gets build offset i * BytesPerWord
    and target offset i * TargetBytesPerWord. -/
def poolFields (bpw tbpw : Nat) : List Ty → Nat → List Field
  | [], _ => []
  | ty :: rest, i => Field.mk ty (i * bpw) (i * tbpw) :: poolFields bpw tbpw rest (i + 1)

/-- Build the PoolKind TypeMap for a parsed constant pool: the two leading
    (object, intptr) slots for the pool header, then one slot per pool
    entry (two for Long/Double).  No map is built for an empty pool. -/
def makePoolTypeMap (bpw tbpw : Nat) (tags : List CPTag) : Option TypeMap :=
  match poolSlotTypes tags with
  | Option.none => Option.none
  | some ts =>
    if ts.length = 0 then Option.none
    else
      mkTypeMap bpw (ts.length + 2) (ts.length + 2) Kind.PoolKind 0 0 Ty.tnone
        (poolFields bpw tbpw (Ty.object :: Ty.intptr :: ts) 0)

/-! ### Class field table TypeMap builders (makeCodeImage, second part) -/

/-- VM field codes recognised by the builder switch; OtherCode models the
    default: abort(t) branch (an unsupported layout). -/
inductive FieldCode where
  | ObjectField
  | ByteField
  | BooleanField
  | CharField
  | ShortField
  | FloatField
  | IntField
  | LongField
  | DoubleField
  | OtherCode
  deriving DecidableEq, Repr

/-- The builder's field-code switch: the Type tag each field code is
    transcribed with.  Note CharField/ShortField map to int8, exactly as
    in the source. -/
def fieldTypeOf : FieldCode → Option Ty
  | FieldCode.ObjectField => some Ty.object
  | FieldCode.ByteField => some Ty.int8
  | FieldCode.BooleanField => some Ty.int8
  | FieldCode.CharField => some Ty.int8
  | FieldCode.ShortField => some Ty.int8
  | FieldCode.FloatField => some Ty.int32
  | FieldCode.IntField => some Ty.int32
  | FieldCode.LongField => some Ty.int64
  | FieldCode.DoubleField => some Ty.int64
  | FieldCode.OtherCode => Option.none

/-- One entry of a class's field table as the builder consumes it:
    the field code, the host fieldSize(t, code) value, the static flag and
    the host fieldOffset(t, field) value (all supplied by the VM). -/
structure ClassField where
  code : FieldCode
  hostSize : Nat
  isStatic : Bool
  boff : Nat
  deriving DecidableEq, Repr

/-- The per-partition builder loop: starting from the running target
    offset, for each field pick the tag, override size to
    TargetBytesPerWord for object fields, align the target offset to the
    size, record the entry, and advance.  Returns the entries and the
    final running target offset. -/
def buildFields (tbpw : Nat) : List ClassField → Nat → Option (List Field × Nat)
  | [], toff => some ([], toff)
  | cf :: rest, toff =>
    match fieldTypeOf cf.code with
    | Option.none => Option.none
    | some ty =>
      let size := if cf.code = FieldCode.ObjectField then tbpw else cf.hostSize
      let toff1 := alignUp toff size
      match buildFields tbpw rest (toff1 + size) with
      | some (fs, tend) => some (Field.mk ty cf.boff toff1 :: fs, tend)
      | Option.none => Option.none

/-- NormalKind TypeMap for a class's instance layout: leading
    (object, 0, 0) header entry, then the non-static fields, member
    target offsets starting at TargetBytesPerWord.  classFixedSize is the
    host fixed size in bytes supplied by the VM. -/
def makeMemberTypeMap (bpw tbpw classFixedSize : Nat) (cfs : List ClassField) :
    Option TypeMap :=
  match buildFields tbpw (cfs.filter (fun f => !f.isStatic)) tbpw with
  | some (fs, tend) =>
    mkTypeMap bpw (ceiling classFixedSize bpw) (ceiling tend tbpw) Kind.NormalKind
      0 0 Ty.tnone (Field.mk Ty.object 0 0 :: fs)
  | Option.none => Option.none

/-- SingletonKind TypeMap for a class's static table: leading
    (object, 0, 0) and (intptr, BytesPerWord, TargetBytesPerWord) header
    entries, then the static fields, static target offsets starting at
    2 * TargetBytesPerWord.  singletonCount is supplied by the VM. -/
def makeStaticTypeMap (bpw tbpw singletonCount : Nat) (cfs : List ClassField) :
    Option TypeMap :=
  match buildFields tbpw (cfs.filter (fun f => f.isStatic)) (tbpw * 2) with
  | some (fs, tend) =>
    mkTypeMap bpw (singletonCount + 2) (ceiling tend tbpw) Kind.SingletonKind
      0 0 Ty.tnone (Field.mk Ty.object 0 0 :: Field.mk Ty.intptr bpw tbpw :: fs)
  | Option.none => Option.none

/-! ### Hard-coded VM type descriptor builder (writeBootImage2) -/

/-- The descriptor switch of writeBootImage2: stored tag, build size and
    target size for one descriptor Type entry. -/
def descInfo (bpw tbpw : Nat) : Ty → Option (Ty × Nat × Nat)
  | Ty.object => some (Ty.object, bpw, tbpw)
  | Ty.word => some (Ty.intptr, bpw, tbpw)
  | Ty.intptr => some (Ty.intptr, bpw, tbpw)
  | Ty.uintptr => some (Ty.intptr, bpw, tbpw)
  | Ty.int8 => some (Ty.int8, 1, 1)
  | Ty.uint8 => some (Ty.int8, 1, 1)
  | Ty.int16 => some (Ty.int16, 2, 2)
  | Ty.uint16 => some (Ty.int16, 2, 2)
  | Ty.int32 => some (Ty.int32, 4, 4)
  | Ty.uint32 => some (Ty.int32, 4, 4)
  | Ty.float => some (Ty.int32, 4, 4)
  | Ty.int64 => some (Ty.int64, 8, 8)
  | Ty.uint64 => some (Ty.int64, 8, 8)
  | Ty.double => some (Ty.int64, 8, 8)
  | Ty.array => some (Ty.tnone, 0, 0)
  | _ => Option.none

/-- Accumulated result of the descriptor loop. -/
structure DescResult where
  fields : List Field
  types : List Ty
  buildOffset : Nat
  targetOffset : Nat
  sawArray : Bool
  lastBuildSize : Nat
  lastTargetSize : Nat
  deriving Repr

/-- The descriptor loop: for each source tag, translate it; once the
    array marker is seen stop recording offsets (the remaining tags
    describe the tail array); otherwise align both running offsets to the
    entry's sizes, record a Field, and advance. -/
def descLoop (bpw tbpw : Nat) :
    List Ty → Nat → Nat → Bool → Nat → Nat → Option DescResult
  | [], boff, toff, saw, bsz, tsz =>
    some (DescResult.mk [] [] boff toff saw bsz tsz)
  | s :: rest, boff, toff, saw, bsz, tsz =>
    match descInfo bpw tbpw s with
    | Option.none => Option.none
    | some (ty, bs, ts) =>
      if saw || (s == Ty.array) then
        match descLoop bpw tbpw rest boff toff true bs ts with
        | some r => some { r with types := ty :: r.types }
        | Option.none => Option.none
      else
        match descLoop bpw tbpw rest (alignUp boff bs + bs) (alignUp toff ts + ts)
            false bs ts with
        | some r =>
          some { r with
                 types := ty :: r.types
                 fields := Field.mk ty (alignUp boff bs) (alignUp toff ts) :: r.fields }
        | Option.none => Option.none

/-- NormalKind TypeMap from a hard-coded VM type descriptor.  count is the
    descriptor length including the Type_none terminator; when an array
    marker was seen only count - 2 fields exist and the trailing sizes and
    types describe the tail array.  Descriptors whose recorded field count
    does not match (reading uninitialised offsets in the source) yield
    nothing. -/
def makeDescriptorTypeMap (bpw tbpw : Nat) (source : List Ty) : Option TypeMap :=
  match descLoop bpw tbpw source bpw tbpw false bpw tbpw with
  | Option.none => Option.none
  | some r =>
    let count := source.length + 1
    let fields := Field.mk Ty.object 0 0 :: r.fields
    if r.sawArray then
      if fields.length = count - 2 then
        mkTypeMap bpw (ceiling r.buildOffset bpw) (ceiling r.targetOffset tbpw)
          Kind.NormalKind r.lastBuildSize r.lastTargetSize
          ((r.types.getLast?).getD Ty.tnone) fields
      else Option.none
    else
      if fields.length = count then
        mkTypeMap bpw (ceiling r.buildOffset bpw) (ceiling r.targetOffset tbpw)
          Kind.NormalKind 0 0 Ty.tnone fields
      else Option.none

/-! ### Field transcoder (copy) -/

/-- Destination byte widths of the field transcoder's switch: int8 is a
    one-byte memcpy, int16/int32/int64 write 2/4/8 swapped bytes, the pad
    tags write nothing, intptr and object write TargetBytesPerWord bytes
    (object slots are zero-filled).  Other tags hit abort(t). -/
def copyDstBytes (tbpw : Nat) : Ty → Option Nat
  | Ty.int8 => some 1
  | Ty.int16 => some 2
  | Ty.int32 => some 4
  | Ty.float => some 4
  | Ty.int64 => some 8
  | Ty.double => some 8
  | Ty.int64pad => some 0
  | Ty.doublepad => some 0
  | Ty.intptr => some tbpw
  | Ty.object => some tbpw
  | _ => Option.none

/-! ### Size calculator (targetSize) -/

/-- targetSize(t, typeMaps, p): the singleton/pool mask size helpers live
    in the runtime (machine.h) and are taken as function parameters;
    arrayLenAt models cast of p at a byte offset, i.e. reading the
    trailing-array length word from the live object. -/
def targetSize (bpw tbpw tbits : Nat) (sms pms : Nat → Nat → Nat)
    (m : TypeMap) (arrayLenAt : Nat → Nat) : Nat :=
  if m.targetArrayElementSizeInBytes ≠ 0 then
    m.targetFixedSizeInWords
      + ceiling (m.targetArrayElementSizeInBytes
                  * arrayLenAt ((m.buildFixedSizeInWords - 1) * bpw)) tbpw
  else
    match m.kind with
    | Kind.NormalKind => m.targetFixedSizeInWords
    | Kind.SingletonKind =>
      m.targetFixedSizeInWords + sms (m.targetFixedSizeInWords - 2) tbits
    | Kind.PoolKind =>
      let ms := pms (m.targetFixedSizeInWords - 2) tbits
      m.targetFixedSizeInWords + ms
        + sms (m.targetFixedSizeInWords - 2 + ms) tbits

/-! ### Heap-walk visitor (makeHeapImage's Visitor) -/

/-- Fatal error kinds the modelled routines can raise (expect aborts). -/
inductive VMError where
  | CapacityExceeded
  deriving DecidableEq, Repr

/-- TargetFixieSizeInBytes = 8 + TargetBytesPerWord * 2. -/
def fixieSizeInBytes (tbpw : Nat) : Nat := 8 + tbpw * 2

/-- TargetFixieSizeInWords = ceiling of the byte size. -/
def fixieSizeInWords (tbpw : Nat) : Nat := ceiling (fixieSizeInBytes tbpw) tbpw

/-- The fixie header values the fixed-object branch writes at byte
    offsets TargetFixieAge, TargetFixieHasMask and TargetFixieSize. -/
structure FixieHeader where
  age : Nat
  hasMask : Nat
  sizeField : Nat
  deriving DecidableEq, Repr

/-- The environment of the visitor: word sizes, the runtime's opaque bit
    patterns, and the VM collaborator routines the visitor calls
    (targetSize and targetOffset of a live object, class tests, and the
    field transcoder writing an object's body at a word position). -/
structure Params (Obj : Type) where
  bpw : Nat
  tbpw : Nat
  ClassStaticTable : Nat
  FixieTenureThreshold : Nat
  FixedMark : Nat
  notPointerMask : Nat
  BootShift : Nat
  targetSizeOf : Obj → Nat
  targetOffsetOf : Obj → Nat → Nat
  isClassObject : Obj → Bool
  isSystemClassLoader : Obj → Bool
  copyAt : Obj → Nat → (Nat → Nat) → (Nat → Nat)

/-- The visitor's mutable fields: the current edge context set by push and
    cleared by root/pop, the target-word-indexed heap buffer, the heap
    pointer bitmap, the emission position and the word capacity. -/
structure VisitorState (Obj : Type) where
  currentObject : Option Obj
  currentNumber : Nat
  currentOffset : Nat
  heap : Nat → Nat
  map : Nat → Bool
  position : Nat
  capacity : Nat

/-- memset of n words starting at start to zero. -/
def zeroRange (h : Nat → Nat) (start n : Nat) : Nat → Nat :=
  fun i => if start ≤ i ∧ i < start + n then 0 else h i

/-- Visitor::visit(number): patch the back-pointer slot of the current
    edge.  mark and value are C unsigned (32-bit) locals, hence the
    explicit truncations. -/
def visit {Obj : Type} (P : Params Obj) (st : VisitorState Obj) (number : Nat) :
    VisitorState Obj :=
  match st.currentObject with
  | Option.none => st
  | some co =>
    let off := st.currentNumber - 1
      + P.targetOffsetOf co (st.currentOffset * P.bpw) / P.tbpw
    let mark := (st.heap off &&& P.notPointerMask) % 2 ^ 32
    let value := (number % 2 ^ 32) ||| ((mark <<< P.BootShift) % 2 ^ 32)
    { st with
      heap := Function.update st.heap off value
      map := if value ≠ 0 then Function.update st.map off true else st.map }

/-- Visitor::visitOld(p, number) just patches. -/
def visitOld {Obj : Type} (P : Params Obj) (st : VisitorState Obj) (number : Nat) :
    VisitorState Obj :=
  visit P st number

/-- The classification condition of visitNew: the current edge leaves a
    class object at build byte offset ClassStaticTable, or p is an
    instance of the system class-loader type. -/
def fixedCondB {Obj : Type} (P : Params Obj) (st : VisitorState Obj) (p : Obj) :
    Bool :=
  (match st.currentObject with
   | some co => P.isClassObject co && (st.currentOffset * P.bpw == P.ClassStaticTable)
   | Option.none => false) || P.isSystemClassLoader p

/-- The fixed-object branch of visitNew: zero and fill the fixie header
    (its byte values carried in a FixieHeader record), transcode the body
    at position + TargetFixieSizeInWords, OR FixedMark into the body's
    first word, zero the trailing mask words, and number the body. -/
def emitFixed {Obj : Type} (P : Params Obj) (st : VisitorState Obj) (p : Obj) :
    Except VMError (FixieHeader × Nat × VisitorState Obj) :=
  let size := P.targetSizeOf p
  let fw := fixieSizeInWords P.tbpw
  let dstPos := st.position + fw
  let maskSize := ceiling size P.tbpw
  let total := fw + size + maskSize
  if st.position + total < st.capacity then
    let hdr : FixieHeader :=
      FixieHeader.mk ((P.FixieTenureThreshold + 1) % 2 ^ 8) 1 (size % 2 ^ 32)
    let h0 := zeroRange st.heap st.position fw
    let h1 := P.copyAt p dstPos h0
    let h2 := Function.update h1 dstPos (h1 dstPos ||| P.FixedMark)
    let h3 := zeroRange h2 (dstPos + size) maskSize
    Except.ok (hdr, dstPos + 1,
      { st with heap := h3, position := st.position + total })
  else Except.error VMError.CapacityExceeded

/-- The plain (copyable) branch of visitNew. -/
def emitPlain {Obj : Type} (P : Params Obj) (st : VisitorState Obj) (p : Obj) :
    Except VMError (Nat × VisitorState Obj) :=
  let size := P.targetSizeOf p
  if st.position + size < st.capacity then
    Except.ok (st.position + 1,
      { st with heap := P.copyAt p st.position st.heap
                position := st.position + size })
  else Except.error VMError.CapacityExceeded

/-- Which branch visitNew emitted through. -/
inductive EmitKind where
  | nullKind
  | fixedKind (hdr : FixieHeader)
  | plainKind
  deriving DecidableEq, Repr

/-- Visitor::visitNew(p): null maps to number 0; otherwise classify,
    emit through the fixed or plain branch, then patch the incoming edge
    with visit(number). -/
def visitNew {Obj : Type} (P : Params Obj) (st : VisitorState Obj) :
    Option Obj → Except VMError (Nat × VisitorState Obj × EmitKind)
  | Option.none => Except.ok (0, st, EmitKind.nullKind)
  | some p =>
    if fixedCondB P st p then
      match emitFixed P st p with
      | Except.ok (hdr, n, st1) => Except.ok (n, visit P st1 n, EmitKind.fixedKind hdr)
      | Except.error e => Except.error e
    else
      match emitPlain P st p with
      | Except.ok (n, st1) => Except.ok (n, visit P st1 n, EmitKind.plainKind)
      | Except.error e => Except.error e

/-! Projections of visitNew and emitFixed results, with defaults on the
    error branch so properties can be stated without binding the result. -/

def vnOk {Obj : Type} : Except VMError (Nat × VisitorState Obj × EmitKind) → Bool
  | Except.ok _ => true
  | Except.error _ => false

def vnNumber {Obj : Type} : Except VMError (Nat × VisitorState Obj × EmitKind) → Nat
  | Except.ok (n, _, _) => n
  | Except.error _ => 0

def vnPosition {Obj : Type} : Except VMError (Nat × VisitorState Obj × EmitKind) → Nat
  | Except.ok (_, s, _) => s.position
  | Except.error _ => 0

def vnIsFixed {Obj : Type} : Except VMError (Nat × VisitorState Obj × EmitKind) → Bool
  | Except.ok (_, _, EmitKind.fixedKind _) => true
  | _ => false

def vnIsPlain {Obj : Type} : Except VMError (Nat × VisitorState Obj × EmitKind) → Bool
  | Except.ok (_, _, EmitKind.plainKind) => true
  | _ => false

def vnHeader {Obj : Type} : Except VMError (Nat × VisitorState Obj × EmitKind) → FixieHeader
  | Except.ok (_, _, EmitKind.fixedKind hdr) => hdr
  | _ => FixieHeader.mk 0 0 0

def efOk {Obj : Type} : Except VMError (FixieHeader × Nat × VisitorState Obj) → Bool
  | Except.ok _ => true
  | Except.error _ => false

def efHeader {Obj : Type} : Except VMError (FixieHeader × Nat × VisitorState Obj) → FixieHeader
  | Except.ok (hdr, _, _) => hdr
  | Except.error _ => FixieHeader.mk 0 0 0

def efNumber {Obj : Type} : Except VMError (FixieHeader × Nat × VisitorState Obj) → Nat
  | Except.ok (_, n, _) => n
  | Except.error _ => 0

def efPosition {Obj : Type} : Except VMError (FixieHeader × Nat × VisitorState Obj) → Nat
  | Except.ok (_, _, s) => s.position
  | Except.error _ => 0

def efHeapAt {Obj : Type} (r : Except VMError (FixieHeader × Nat × VisitorState Obj))
    (i : Nat) : Nat :=
  match r with
  | Except.ok (_, _, s) => s.heap i
  | Except.error _ => 0

/-- image->heapSize = visitor.position * BytesPerWord (the build word
    size, not the target's). -/
def heapSizeField (bpw position : Nat) : Nat := position * bpw

/-- The number of heap bytes actually emitted: position target words. -/
def emittedHeapBytes (tbpw position : Nat) : Nat := position * tbpw

/-! ### Code-constant resolver, heap-constant pass (updateConstants) -/

inductive UCError where
  | InvariantViolation
  deriving DecidableEq, Repr

/-- One patch callback hanging off a deferred heap constant: the flat
    flag its resolve reports and the byte offset of the patched immediate
    within the code buffer (location - code). -/
structure PatchListener where
  flat : Bool
  loc : Nat
  deriving DecidableEq, Repr

/-- One deferred heap constant: the heap-walker map's number for its
    object and the chained listeners. -/
structure HeapConst where
  target : Nat
  listeners : List PatchListener
  deriving DecidableEq, Repr

/-- The immediate written for one listener:
    offset = target | BootHeapOffset, OR BootFlatConstant when flat,
    stored in target word width. -/
def constantPatch (tbits bho bfc target : Nat) (flat : Bool) : Nat :=
  ((target ||| bho) ||| (if flat then bfc else 0)) % 2 ^ tbits

/-- markBit over one constant's listeners. -/
def markLocs (ls : List PatchListener) (cm : Nat → Bool) : Nat → Bool :=
  ls.foldl (fun m l => Function.update m l.loc true) cm

/-- updateConstants: for each deferred constant, its looked-up number
    must be positive (expect target > 0, an InvariantViolation abort
    otherwise), then every listener's immediate is patched and its code
    bitmap bit marked.  Returns the (location, value) patches in order
    and the final code bitmap. -/
def updateConstants (tbits bho bfc : Nat) :
    List HeapConst → (Nat → Bool) → Except UCError (List (Nat × Nat) × (Nat → Bool))
  | [], cm => Except.ok ([], cm)
  | c :: rest, cm =>
    if 0 < c.target then
      let ps := c.listeners.map (fun l => (l.loc, constantPatch tbits bho bfc c.target l.flat))
      match updateConstants tbits bho bfc rest (markLocs c.listeners cm) with
      | Except.ok (ps2, cm2) => Except.ok (ps ++ ps2, cm2)
      | Except.error e => Except.error e
    else Except.error UCError.InvariantViolation

def ucOk : Except UCError (List (Nat × Nat) × (Nat → Bool)) → Bool
  | Except.ok _ => true
  | Except.error _ => false

def ucPatches : Except UCError (List (Nat × Nat) × (Nat → Bool)) → List (Nat × Nat)
  | Except.ok (ps, _) => ps
  | Except.error _ => []

def ucMark (r : Except UCError (List (Nat × Nat) × (Nat → Bool))) (i : Nat) : Bool :=
  match r with
  | Except.ok (_, cm) => cm i
  | Except.error _ => false

/-! ### Lemmas about the shared offset-table fill loop -/

theorem getD_set_self (l : List Nat) (i v : Nat) (h : i < l.length) :
    (l.set i v).getD i 0 = v := by
  rw [List.getD_eq_getElem?_getD, List.getElem?_set_eq_of_lt _ h]; rfl

theorem getD_set_ne (l : List Nat) (i j v : Nat) (h : i ≠ j) :
    (l.set i v).getD j 0 = l.getD j 0 := by
  rw [List.getD_eq_getElem?_getD, List.getElem?_set_ne h, List.getD_eq_getElem?_getD]

theorem storeOffsets_cons (a : Field) (fs : List Field) (tbl : List Nat) :
    storeOffsets (a :: fs) tbl = storeOffsets fs (tbl.set a.offset a.targetOffset) := rfl

theorem storeOffsets_length (fs : List Field) :
    ∀ tbl : List Nat, (storeOffsets fs tbl).length = tbl.length := by
  induction fs with
  | nil => intro tbl; rfl
  | cons a fs ih =>
    intro tbl
    rw [storeOffsets_cons, ih, List.length_set]

theorem storeOffsets_getD_not_mem (fs : List Field) :
    ∀ (tbl : List Nat) (x : Nat), x ∉ fs.map Field.offset →
      (storeOffsets fs tbl).getD x 0 = tbl.getD x 0 := by
  induction fs with
  | nil => intro tbl x _; rfl
  | cons a fs ih =>
    intro tbl x hx
    have hx2 : x ∉ fs.map Field.offset := by
      intro h
      exact hx (by rw [List.map_cons]; exact List.mem_cons_of_mem _ h)
    have hxa : a.offset ≠ x := by
      intro h
      exact hx (by rw [List.map_cons, h]; exact List.mem_cons_self _ _)
    rw [storeOffsets_cons, ih _ x hx2, getD_set_ne tbl a.offset x a.targetOffset hxa]

theorem storeOffsets_getD_mem (fs : List Field) :
    ∀ tbl : List Nat, (fs.map Field.offset).Nodup →
      (∀ f ∈ fs, f.offset < tbl.length) →
      ∀ f ∈ fs, (storeOffsets fs tbl).getD f.offset 0 = f.targetOffset := by
  induction fs with
  | nil => intro tbl _ _ f hf; exact absurd hf (List.not_mem_nil f)
  | cons a fs ih =>
    intro tbl hnd hlt f hf
    rw [List.map_cons, List.nodup_cons] at hnd
    rcases List.mem_cons.mp hf with rfl | hf2
    · rw [storeOffsets_cons, storeOffsets_getD_not_mem fs _ f.offset hnd.1]
      exact getD_set_self tbl f.offset f.targetOffset (hlt f (List.mem_cons_self _ _))
    · rw [storeOffsets_cons]
      refine ih _ hnd.2 ?_ f hf2
      intro g hg
      rw [List.length_set]
      exact hlt g (List.mem_cons_of_mem _ hg)

/-- Any TypeMap built through mkTypeMap from fields with pairwise distinct
    build offsets satisfies the offset-lookup invariant. -/
theorem mkTypeMap_consistent (bpw buildW targetW : Nat) (kind : Kind)
    (bArr tArr : Nat) (aty : Ty) (fields : List Field)
    (hnd : (fields.map Field.offset).Nodup) (m : TypeMap)
    (h : mkTypeMap bpw buildW targetW kind bArr tArr aty fields = some m) :
    offsetsConsistent m = true := by
  unfold mkTypeMap at h
  split at h
  case isTrue hall =>
    cases h
    unfold offsetsConsistent
    rw [List.all_eq_true]
    intro f hf
    rw [beq_iff_eq]
    refine storeOffsets_getD_mem fields _ hnd ?_ f hf
    intro g hg
    rw [List.length_replicate]
    exact of_decide_eq_true (List.all_eq_true.mp hall g hg)
  case isFalse => cases h

/-! ### Build offsets produced by each builder path -/

theorem poolFields_cons (bpw tbpw : Nat) (t : Ty) (ts : List Ty) (i : Nat) :
    poolFields bpw tbpw (t :: ts) i
      = Field.mk t (i * bpw) (i * tbpw) :: poolFields bpw tbpw ts (i + 1) := rfl

theorem poolFields_offset_ge (bpw tbpw : Nat) (ts : List Ty) :
    ∀ (i : Nat) (f : Field), f ∈ poolFields bpw tbpw ts i → i * bpw ≤ f.offset := by
  induction ts with
  | nil => intro i f hf; exact absurd hf (List.not_mem_nil f)
  | cons t ts ih =>
    intro i f hf
    rw [poolFields_cons] at hf
    rcases List.mem_cons.mp hf with rfl | hf2
    · exact Nat.le_refl _
    · exact Nat.le_trans (Nat.mul_le_mul_right _ (Nat.le_succ i)) (ih (i + 1) f hf2)

theorem poolFields_offsets_nodup (bpw tbpw : Nat) (hb : 0 < bpw) (ts : List Ty) :
    ∀ i : Nat, ((poolFields bpw tbpw ts i).map Field.offset).Nodup := by
  induction ts with
  | nil => intro i; exact List.nodup_nil
  | cons t ts ih =>
    intro i
    rw [poolFields_cons, List.map_cons]
    refine List.nodup_cons.mpr ⟨?_, ih (i + 1)⟩
    intro hmem
    rcases List.mem_map.mp hmem with ⟨f, hf, hoff⟩
    have hge := poolFields_offset_ge bpw tbpw ts (i + 1) f hf
    have hoff2 : f.offset = i * bpw := hoff
    rw [hoff2, Nat.succ_mul] at hge
    omega

theorem buildFields_boffs (tbpw : Nat) (l : List ClassField) :
    ∀ (toff : Nat) (fs : List Field) (tend : Nat),
      buildFields tbpw l toff = some (fs, tend) →
      fs.map Field.offset = l.map ClassField.boff := by
  induction l with
  | nil =>
    intro toff fs tend h
    cases h
    rfl
  | cons cf l ih =>
    intro toff fs tend h
    unfold buildFields at h
    cases hty : fieldTypeOf cf.code with
    | none => rw [hty] at h; cases h
    | some ty =>
      rw [hty] at h
      simp only at h
      cases hrec : buildFields tbpw l
          (alignUp toff (if cf.code = FieldCode.ObjectField then tbpw else cf.hostSize)
            + (if cf.code = FieldCode.ObjectField then tbpw else cf.hostSize)) with
      | none => rw [hrec] at h; cases h
      | some pr =>
        rw [hrec] at h
        obtain ⟨fs2, te2⟩ := pr
        cases h
        rw [List.map_cons, List.map_cons, ih _ _ _ hrec]

theorem le_alignUp (off size : Nat) : off ≤ alignUp off size := Nat.le_add_right _ _

theorem descInfo_bs_pos (bpw tbpw : Nat) (hb : 0 < bpw) (s ty : Ty) (bs ts : Nat)
    (hs : s ≠ Ty.array) (h : descInfo bpw tbpw s = some (ty, bs, ts)) : 0 < bs := by
  cases s
  case array => exact absurd rfl hs
  all_goals simp only [descInfo, Option.some.injEq, Prod.mk.injEq] at h
  all_goals (try exact Option.noConfusion h)
  all_goals (obtain ⟨h1, h2, h3⟩ := h; omega)

theorem descLoop_saw_fields (bpw tbpw : Nat) (src : List Ty) :
    ∀ (boff toff bsz tsz : Nat) (r : DescResult),
      descLoop bpw tbpw src boff toff true bsz tsz = some r → r.fields = [] := by
  induction src with
  | nil => intro boff toff bsz tsz r h; cases h; rfl
  | cons s rest ih =>
    intro boff toff bsz tsz r h
    unfold descLoop at h
    split at h
    · cases h
    next ty bs ts hi =>
      rw [if_pos (by rw [Bool.true_or])] at h
      split at h
      next r2 hrec =>
        cases h
        exact ih boff toff bs ts r2 hrec
      next => cases h

theorem descLoop_fields_mono (bpw tbpw : Nat) (hb : 0 < bpw) (src : List Ty) :
    ∀ (boff toff bsz tsz : Nat) (r : DescResult),
      descLoop bpw tbpw src boff toff false bsz tsz = some r →
      (∀ f ∈ r.fields, boff ≤ f.offset) ∧ (r.fields.map Field.offset).Nodup := by
  induction src with
  | nil =>
    intro boff toff bsz tsz r h
    cases h
    exact ⟨fun f hf => absurd hf (List.not_mem_nil f), List.nodup_nil⟩
  | cons s rest ih =>
    intro boff toff bsz tsz r h
    unfold descLoop at h
    split at h
    · cases h
    next ty bs ts hi =>
      rw [Bool.false_or] at h
      split at h
      next hsaw =>
        split at h
        next r2 hrec =>
          cases h
          have hf2 := descLoop_saw_fields bpw tbpw rest boff toff bs ts r2 hrec
          refine ⟨?_, ?_⟩
          · intro f hf
            have hf3 : f ∈ r2.fields := hf
            rw [hf2] at hf3
            exact absurd hf3 (List.not_mem_nil f)
          · show (r2.fields.map Field.offset).Nodup
            rw [hf2]
            exact List.nodup_nil
        next => cases h
      next hsaw =>
        split at h
        next r2 hrec =>
          cases h
          have hs : s ≠ Ty.array := by
            intro hh
            rw [hh] at hsaw
            simp at hsaw
          have hbs := descInfo_bs_pos bpw tbpw hb s ty bs ts hs hi
          obtain ⟨hmono, hnd⟩ :=
            ih (alignUp boff bs + bs) (alignUp toff ts + ts) bs ts r2 hrec
          refine ⟨?_, ?_⟩
          · intro f hf
            rcases List.mem_cons.mp hf with rfl | hf3
            · exact le_alignUp boff bs
            · exact Nat.le_trans (le_alignUp boff bs)
                (Nat.le_trans (Nat.le_add_right _ bs) (hmono f hf3))
          · show ((Field.mk ty (alignUp boff bs) (alignUp toff ts) :: r2.fields).map
              Field.offset).Nodup
            rw [List.map_cons]
            refine List.nodup_cons.mpr ⟨?_, hnd⟩
            intro hmem
            rcases List.mem_map.mp hmem with ⟨f, hf, hoff⟩
            have hge := hmono f hf
            have hoff2 : f.offset = alignUp boff bs := hoff
            omega
        next => cases h

theorem option_all_of_forall {α : Type} (p : α → Bool) (o : Option α)
    (h : ∀ a, o = some a → p a = true) : o.all p = true := by
  cases o with
  | none => rfl
  | some a => exact h a rfl

theorem makePoolTypeMap_consistent (bpw tbpw : Nat) (hb : 0 < bpw)
    (tags : List CPTag) (m : TypeMap) (h : makePoolTypeMap bpw tbpw tags = some m) :
    offsetsConsistent m = true := by
  unfold makePoolTypeMap at h
  split at h
  · cases h
  next ts hts =>
    split at h
    · cases h
    next hne =>
      exact mkTypeMap_consistent _ _ _ _ _ _ _ _
        (poolFields_offsets_nodup bpw tbpw hb _ 0) m h

theorem makeMemberTypeMap_consistent (bpw tbpw csize : Nat) (cfs : List ClassField)
    (hnd : (0 :: (cfs.filter (fun f => !f.isStatic)).map ClassField.boff).Nodup)
    (m : TypeMap) (h : makeMemberTypeMap bpw tbpw csize cfs = some m) :
    offsetsConsistent m = true := by
  unfold makeMemberTypeMap at h
  split at h
  next fs tend hbf =>
    refine mkTypeMap_consistent _ _ _ _ _ _ _ _ ?_ m h
    rw [List.map_cons, buildFields_boffs tbpw _ _ _ _ hbf]
    exact hnd
  next => cases h

theorem makeStaticTypeMap_consistent (bpw tbpw scount : Nat) (cfs : List ClassField)
    (hnd : (0 :: bpw :: (cfs.filter (fun f => f.isStatic)).map ClassField.boff).Nodup)
    (m : TypeMap) (h : makeStaticTypeMap bpw tbpw scount cfs = some m) :
    offsetsConsistent m = true := by
  unfold makeStaticTypeMap at h
  split at h
  next fs tend hbf =>
    refine mkTypeMap_consistent _ _ _ _ _ _ _ _ ?_ m h
    rw [List.map_cons, List.map_cons, buildFields_boffs tbpw _ _ _ _ hbf]
    exact hnd
  next => cases h

theorem makeDescriptorTypeMap_consistent (bpw tbpw : Nat) (hb : 0 < bpw)
    (source : List Ty) (m : TypeMap)
    (h : makeDescriptorTypeMap bpw tbpw source = some m) :
    offsetsConsistent m = true := by
  unfold makeDescriptorTypeMap at h
  split at h
  · cases h
  next r hr =>
    have key : ((Field.mk Ty.object 0 0 :: r.fields).map Field.offset).Nodup := by
      obtain ⟨hmono, hnd⟩ :=
        descLoop_fields_mono bpw tbpw hb source bpw tbpw bpw tbpw r hr
      rw [List.map_cons]
      refine List.nodup_cons.mpr ⟨?_, hnd⟩
      intro hmem
      rcases List.mem_map.mp hmem with ⟨f, hf, hoff⟩
      have hge := hmono f hf
      have hoff2 : f.offset = 0 := hoff
      omega
    dsimp only at h
    split at h
    · split at h
      · exact mkTypeMap_consistent _ _ _ _ _ _ _ _ key m h
      · cases h
    · split at h
      · exact mkTypeMap_consistent _ _ _ _ _ _ _ _ key m h
      · cases h

/-- C7: every TypeMap built by the three builder paths (constant pool,
    class field table giving the member and static maps, hard-coded VM
    type descriptors) stores, for each of its fields, the field's target
    offset in the lookup table at the field's build offset.  The field
    and static build offsets supplied by the VM are assumed pairwise
    distinct (each field of a class has its own offset, and the two
    singleton header slots precede them). -/
theorem typeMap_offset_lookup_consistency (bpw tbpw : Nat) (hb : 0 < bpw) :
    (∀ tags : List CPTag,
      (makePoolTypeMap bpw tbpw tags).all offsetsConsistent = true)
  ∧ (∀ (csize : Nat) (cfs : List ClassField),
      (0 :: (cfs.filter (fun f => !f.isStatic)).map ClassField.boff).Nodup →
      (makeMemberTypeMap bpw tbpw csize cfs).all offsetsConsistent = true)
  ∧ (∀ (scount : Nat) (cfs : List ClassField),
      (0 :: bpw :: (cfs.filter (fun f => f.isStatic)).map ClassField.boff).Nodup →
      (makeStaticTypeMap bpw tbpw scount cfs).all offsetsConsistent = true)
  ∧ (∀ source : List Ty,
      (makeDescriptorTypeMap bpw tbpw source).all offsetsConsistent = true) := by
  refine ⟨?_, ?_, ?_, ?_⟩
  · intro tags
    exact option_all_of_forall _ _ (makePoolTypeMap_consistent bpw tbpw hb tags)
  · intro csize cfs hnd
    exact option_all_of_forall _ _ (makeMemberTypeMap_consistent bpw tbpw csize cfs hnd)
  · intro scount cfs hnd
    exact option_all_of_forall _ _ (makeStaticTypeMap_consistent bpw tbpw scount cfs hnd)
  · intro source
    exact option_all_of_forall _ _ (makeDescriptorTypeMap_consistent bpw tbpw hb source)

/-- C7 witness: concrete builder runs on a host word of 4 bytes and a
    target word of 8 bytes. -/
theorem typeMap_offset_lookup_consistency_witness :
    ((0 : Nat) < 4)
  ∧ (makePoolTypeMap 4 8 [CPTag.CInteger]).all offsetsConsistent = true
  ∧ (makeMemberTypeMap 4 8 12 [ClassField.mk FieldCode.IntField 4 false 4,
      ClassField.mk FieldCode.ObjectField 4 true 8]).all offsetsConsistent = true
  ∧ (makeStaticTypeMap 4 8 3 [ClassField.mk FieldCode.IntField 4 false 4,
      ClassField.mk FieldCode.ObjectField 4 true 8]).all offsetsConsistent = true
  ∧ (makeDescriptorTypeMap 4 8 [Ty.object, Ty.int32, Ty.array, Ty.int8]).all
      offsetsConsistent = true := by
  refine ⟨by decide, ?_, ?_, ?_, ?_⟩
  · exact (typeMap_offset_lookup_consistency 4 8 (by decide)).1 _
  · exact (typeMap_offset_lookup_consistency 4 8 (by decide)).2.1 12 _ (by decide)
  · exact (typeMap_offset_lookup_consistency 4 8 (by decide)).2.2.1 3 _ (by decide)
  · exact (typeMap_offset_lookup_consistency 4 8 (by decide)).2.2.2 _

/-! ### C10: a constant pool with exactly one (single-slot) entry -/

def tmFieldCount : Option TypeMap → Nat
  | some m => m.fixedFieldCount
  | Option.none => 0

def tmFields : Option TypeMap → List Field
  | some m => m.fixedFields
  | Option.none => []

/-- C10: a parsed constant pool with exactly one entry that is not Long
    or Double (one slot, hslot) yields a Pool-kind TypeMap with
    fixedFieldCount 3 whose two leading fields are the pool header's
    (object, iword) pair, followed by the entry's field. -/
theorem pool_single_entry_map (bpw tbpw : Nat) (hb : 0 < bpw) (tag : CPTag) (ty : Ty)
    (hslot : cpSlots tag = some [ty]) :
    (makePoolTypeMap bpw tbpw [tag]).isSome = true
  ∧ tmFieldCount (makePoolTypeMap bpw tbpw [tag]) = 3
  ∧ tmFields (makePoolTypeMap bpw tbpw [tag])
      = [Field.mk Ty.object 0 0, Field.mk Ty.intptr bpw tbpw,
         Field.mk ty (2 * bpw) (2 * tbpw)] := by
  have hps : poolSlotTypes [tag] = some [ty] := by
    unfold poolSlotTypes
    rw [hslot]
    rfl
  have hmk : makePoolTypeMap bpw tbpw [tag]
      = mkTypeMap bpw 3 3 Kind.PoolKind 0 0 Ty.tnone
          (poolFields bpw tbpw [Ty.object, Ty.intptr, ty] 0) := by
    unfold makePoolTypeMap
    rw [hps]
    rfl
  have hflds : poolFields bpw tbpw [Ty.object, Ty.intptr, ty] 0
      = [Field.mk Ty.object 0 0, Field.mk Ty.intptr bpw tbpw,
         Field.mk ty (2 * bpw) (2 * tbpw)] := by
    simp [poolFields]
  have hcond : (([Field.mk Ty.object 0 0, Field.mk Ty.intptr bpw tbpw,
      Field.mk ty (2 * bpw) (2 * tbpw)] : List Field).all
      (fun f => decide (f.offset < 3 * bpw))) = true := by
    simp only [List.all_cons, List.all_nil, Bool.and_eq_true, decide_eq_true_eq]
    refine ⟨by omega, by omega, by omega, trivial⟩
  rw [hmk, hflds]
  unfold mkTypeMap
  rw [if_pos hcond]
  exact ⟨rfl, rfl, rfl⟩

/-- C10 witness: a pool consisting of a single Integer entry. -/
theorem pool_single_entry_map_witness :
    ((0 : Nat) < 4) ∧ cpSlots CPTag.CInteger = some [Ty.int32]
  ∧ ((makePoolTypeMap 4 8 [CPTag.CInteger]).isSome = true
     ∧ tmFieldCount (makePoolTypeMap 4 8 [CPTag.CInteger]) = 3
     ∧ tmFields (makePoolTypeMap 4 8 [CPTag.CInteger])
         = [Field.mk Ty.object 0 0, Field.mk Ty.intptr 4 8,
            Field.mk Ty.int32 (2 * 4) (2 * 8)]) :=
  ⟨by decide, by decide,
   pool_single_entry_map 4 8 (by decide) CPTag.CInteger Ty.int32 (by decide)⟩

/-! ### C6: char and short fields -/

/-- C6: the field-table builder's switch gives CharField and ShortField
    the tag int8, not the 16-bit tag, so the transcoder's memcpy for
    such a field writes exactly one byte (where int16 would write two). -/
theorem char_short_fields_are_int8 (tbpw : Nat) :
    fieldTypeOf FieldCode.CharField = some Ty.int8
  ∧ fieldTypeOf FieldCode.ShortField = some Ty.int8
  ∧ copyDstBytes tbpw Ty.int8 = some 1
  ∧ fieldTypeOf FieldCode.CharField ≠ some Ty.int16
  ∧ fieldTypeOf FieldCode.ShortField ≠ some Ty.int16
  ∧ copyDstBytes tbpw Ty.int16 = some 2 := by
  refine ⟨rfl, rfl, rfl, ?_, ?_, rfl⟩
  · intro h
    cases h
  · intro h
    cases h

/-! ### C4: targetSize against the specified formulas -/

/-- targetSize as the specification states it, case by case. -/
def specTargetSize (bpw tbpw tbits : Nat) (sms pms : Nat → Nat → Nat)
    (m : TypeMap) (arrayLenAt : Nat → Nat) : Nat :=
  if m.targetArrayElementSizeInBytes ≠ 0 then
    m.targetFixedSizeInWords
      + ceiling (m.targetArrayElementSizeInBytes
                  * arrayLenAt ((m.buildFixedSizeInWords - 1) * bpw)) tbpw
  else if m.kind = Kind.NormalKind then
    m.targetFixedSizeInWords
  else if m.kind = Kind.SingletonKind then
    m.targetFixedSizeInWords + sms (m.targetFixedSizeInWords - 2) tbits
  else
    m.targetFixedSizeInWords + pms (m.targetFixedSizeInWords - 2) tbits
      + sms (m.targetFixedSizeInWords - 2
              + pms (m.targetFixedSizeInWords - 2) tbits) tbits

/-- C4: the implemented targetSize computes exactly the four specified
    formulas (trailing array with the length read from the object at
    byte offset (buildFixedSizeInWords - 1) * BytesPerWord, then the
    Normal, Singleton and Pool cases). -/
theorem targetSize_matches_spec (bpw tbpw tbits : Nat) (sms pms : Nat → Nat → Nat)
    (m : TypeMap) (arrayLenAt : Nat → Nat) :
    targetSize bpw tbpw tbits sms pms m arrayLenAt
      = specTargetSize bpw tbpw tbits sms pms m arrayLenAt := by
  unfold targetSize specTargetSize
  by_cases ha : m.targetArrayElementSizeInBytes ≠ 0
  · rw [if_pos ha, if_pos ha]
  · rw [if_neg ha, if_neg ha]
    cases hk : m.kind <;> simp [hk]

/-! ### C5: the heapSize header field -/

/-- C5: makeHeapImage stores position * BytesPerWord (the build word
    size) into image->heapSize; for a nonempty heap this equals the
    emitted byte count (position target words) exactly when the build
    and target word sizes agree. -/
theorem heapSize_uses_build_word (bpw tbpw position : Nat) (hp : 0 < position) :
    heapSizeField bpw position = position * bpw
  ∧ (heapSizeField bpw position = emittedHeapBytes tbpw position ↔ bpw = tbpw) := by
  refine ⟨rfl, ?_⟩
  unfold heapSizeField emittedHeapBytes
  constructor
  · intro h
    exact Nat.eq_of_mul_eq_mul_left hp h
  · intro h
    rw [h]

/-- C5 witness: three words emitted, host word 4, target word 8: the
    header field reads 12, the emitted bytes are 24. -/
theorem heapSize_uses_build_word_witness :
    ((0 : Nat) < 3)
  ∧ (heapSizeField 4 3 = 3 * 4
     ∧ (heapSizeField 4 3 = emittedHeapBytes 8 3 ↔ (4 : Nat) = 8)) :=
  ⟨by decide, heapSize_uses_build_word 4 8 3 (by decide)⟩

/-! ### C3: back-pointer patching -/

/-- The back-pointer slot of the current edge as the specification
    computes it: current number - 1 plus the target offset of the edge
    (host byte offset current offset * BytesPerWord) in target words. -/
def edgeSlot {Obj : Type} (P : Params Obj) (st : VisitorState Obj) (co : Obj) : Nat :=
  st.currentNumber - 1 + P.targetOffsetOf co (st.currentOffset * P.bpw) / P.tbpw

theorem visit_position {Obj : Type} (P : Params Obj) (st : VisitorState Obj) (n : Nat) :
    (visit P st n).position = st.position := by
  cases hco : st.currentObject with
  | none => simp [visit, hco]
  | some co => simp [visit, hco]

/-- C3: with a current edge in effect, visit(number) stores
    number | ((heap[slot] & ~PointerMask) << BootShift) at the claimed
    slot and sets the heap-bitmap bit of that slot exactly when the
    stored value is non-zero (the bit being clear beforehand, as the
    bitmap starts zero-filled and each edge is patched once); visitOld
    performs exactly this patch.  The bound hypotheses state that the
    32-bit intermediate locals of the source do not truncate. -/
theorem backpatch_spec {Obj : Type} (P : Params Obj) (st : VisitorState Obj)
    (number : Nat) (co : Obj) (hco : st.currentObject = some co)
    (hmark : st.heap (edgeSlot P st co) &&& P.notPointerMask < 2 ^ 32)
    (hshift : (st.heap (edgeSlot P st co) &&& P.notPointerMask) <<< P.BootShift < 2 ^ 32)
    (hnum : number < 2 ^ 32)
    (hclear : st.map (edgeSlot P st co) = false) :
    (visit P st number).heap (edgeSlot P st co)
      = number ||| ((st.heap (edgeSlot P st co) &&& P.notPointerMask) <<< P.BootShift)
  ∧ ((visit P st number).map (edgeSlot P st co) = true
      ↔ number ||| ((st.heap (edgeSlot P st co) &&& P.notPointerMask) <<< P.BootShift) ≠ 0)
  ∧ visitOld P st number = visit P st number := by
  have hval : (number % 2 ^ 32)
      ||| ((((st.heap (edgeSlot P st co) &&& P.notPointerMask) % 2 ^ 32) <<< P.BootShift)
            % 2 ^ 32)
      = number ||| ((st.heap (edgeSlot P st co) &&& P.notPointerMask) <<< P.BootShift) := by
    rw [Nat.mod_eq_of_lt hnum, Nat.mod_eq_of_lt hmark, Nat.mod_eq_of_lt hshift]
  refine ⟨?_, ?_, rfl⟩
  · simp only [visit, hco, edgeSlot] at hval ⊢
    rw [hval, Function.update_same]
  · simp only [visit, hco, edgeSlot] at hval hclear ⊢
    simp only [hval]
    by_cases hz : number ||| ((st.heap (st.currentNumber - 1
        + P.targetOffsetOf co (st.currentOffset * P.bpw) / P.tbpw)
        &&& P.notPointerMask) <<< P.BootShift) = 0
    · rw [if_neg (fun hne => hne hz)]
      simp [hclear, hz]
    · rw [if_pos hz]
      simp [Function.update_same, hz]

/-! ### C1: fixed-object classification -/

theorem fixedCondB_iff {Obj : Type} (P : Params Obj) (st : VisitorState Obj) (p : Obj) :
    fixedCondB P st p = true
      ↔ ((∃ co, st.currentObject = some co ∧ P.isClassObject co = true
            ∧ st.currentOffset * P.bpw = P.ClassStaticTable)
         ∨ P.isSystemClassLoader p = true) := by
  unfold fixedCondB
  cases hco : st.currentObject with
  | none => simp [hco]
  | some co => simp [hco, Bool.or_eq_true, Bool.and_eq_true, beq_iff_eq]

/-- C1: whenever visitNew succeeds on a walked object p, the emission is
    through the fixed branch exactly when the incoming edge leaves a
    class object at build offset ClassStaticTable or p is an instance of
    the system class-loader type; every other successful emission goes
    through the plain copy-collected branch. -/
theorem fixed_classification {Obj : Type} (P : Params Obj) (st : VisitorState Obj)
    (p : Obj) (hok : vnOk (visitNew P st (some p)) = true) :
    (vnIsFixed (visitNew P st (some p)) = true
      ↔ ((∃ co, st.currentObject = some co ∧ P.isClassObject co = true
            ∧ st.currentOffset * P.bpw = P.ClassStaticTable)
         ∨ P.isSystemClassLoader p = true))
  ∧ (vnIsFixed (visitNew P st (some p)) = false →
      vnIsPlain (visitNew P st (some p)) = true) := by
  have hiff := fixedCondB_iff P st p
  cases hfc : fixedCondB P st p with
  | true =>
    cases hef : emitFixed P st p with
    | error e =>
      exfalso
      rw [show visitNew P st (some p) = Except.error e by
        simp [visitNew, hfc, hef]] at hok
      exact Bool.noConfusion hok
    | ok tr =>
      obtain ⟨hdr, n, st1⟩ := tr
      have hvn : visitNew P st (some p)
          = Except.ok (n, visit P st1 n, EmitKind.fixedKind hdr) := by
        simp [visitNew, hfc, hef]
      rw [hvn]
      refine ⟨⟨fun _ => hiff.mp hfc, fun _ => rfl⟩, ?_⟩
      intro hcontra
      exact Bool.noConfusion hcontra
  | false =>
    cases hep : emitPlain P st p with
    | error e =>
      exfalso
      rw [show visitNew P st (some p) = Except.error e by
        simp [visitNew, hfc, hep]] at hok
      exact Bool.noConfusion hok
    | ok pr =>
      obtain ⟨n, st1⟩ := pr
      have hvn : visitNew P st (some p)
          = Except.ok (n, visit P st1 n, EmitKind.plainKind) := by
        simp [visitNew, hfc, hep]
      rw [hvn]
      refine ⟨⟨fun hft => Bool.noConfusion hft, fun hrhs => ?_⟩, fun _ => rfl⟩
      exfalso
      rw [← hiff, hfc] at hrhs
      exact Bool.noConfusion hrhs

/-! ### C9: the plain emission branch -/

/-- C9: when the classification picks the plain branch, a successful
    visitNew implies the capacity guard position + size < capacity held,
    the returned number is position + 1, and position advances by exactly
    size; when the guard fails the walk aborts with CapacityExceeded. -/
theorem plain_emit_spec {Obj : Type} (P : Params Obj) (st : VisitorState Obj) (p : Obj)
    (hnf : fixedCondB P st p = false) :
    (vnOk (visitNew P st (some p)) = true →
      st.position + P.targetSizeOf p < st.capacity
      ∧ vnNumber (visitNew P st (some p)) = st.position + 1
      ∧ vnPosition (visitNew P st (some p)) = st.position + P.targetSizeOf p)
  ∧ (¬ st.position + P.targetSizeOf p < st.capacity →
      visitNew P st (some p) = Except.error VMError.CapacityExceeded) := by
  by_cases hcap : st.position + P.targetSizeOf p < st.capacity
  · have hep : emitPlain P st p
        = Except.ok (st.position + 1,
            { st with heap := P.copyAt p st.position st.heap
                      position := st.position + P.targetSizeOf p }) := by
      unfold emitPlain
      rw [if_pos hcap]
    have hvn : visitNew P st (some p)
        = Except.ok (st.position + 1,
            visit P { st with heap := P.copyAt p st.position st.heap
                              position := st.position + P.targetSizeOf p }
              (st.position + 1),
            EmitKind.plainKind) := by
      simp [visitNew, hnf, hep]
    rw [hvn]
    refine ⟨fun _ => ⟨hcap, rfl, ?_⟩, fun hno => absurd hcap hno⟩
    show (visit P _ (st.position + 1)).position = _
    rw [visit_position]
  · have hep : emitPlain P st p = Except.error VMError.CapacityExceeded := by
      unfold emitPlain
      rw [if_neg hcap]
    have hvn : visitNew P st (some p) = Except.error VMError.CapacityExceeded := by
      simp [visitNew, hnf, hep]
    rw [hvn]
    exact ⟨fun hok => Bool.noConfusion hok, fun _ => rfl⟩

/-! ### C2: the fixed emission branch -/

theorem ceiling_zero (n : Nat) : ceiling 0 n = 0 := by
  unfold ceiling
  cases n with
  | zero => rfl
  | succ k =>
    rw [Nat.zero_add]
    exact Nat.div_eq_of_lt (Nat.lt_succ_of_le (Nat.le_refl k))

theorem vnNumber_fixed {Obj : Type} (P : Params Obj) (st : VisitorState Obj) (p : Obj)
    (hfc : fixedCondB P st p = true) (hok : efOk (emitFixed P st p) = true) :
    vnNumber (visitNew P st (some p)) = efNumber (emitFixed P st p) := by
  cases hef : emitFixed P st p with
  | error e => rw [hef] at hok; exact Bool.noConfusion hok
  | ok tr =>
    obtain ⟨hdr, n, st1⟩ := tr
    simp [visitNew, hfc, hef, vnNumber, efNumber]

/-- C2 (amended): a successful fixed emission writes a fixie header with
    age = FixieTenureThreshold + 1, has-mask = 1 and the object's size in
    target words (not bytes) in the 32-bit size field; the transcoded
    body starts at position + TargetFixieSizeInWords and its first word
    is ORed with FixedMark; the ceiling(size, TargetBytesPerWord)
    trailing mask words are zero-filled; the object number is the body's
    word index + 1 and visitNew returns it; position advances past
    header, body and mask. -/
theorem fixed_emit_spec {Obj : Type} (P : Params Obj) (st : VisitorState Obj) (p : Obj)
    (hok : efOk (emitFixed P st p) = true)
    (hsz : P.targetSizeOf p < 2 ^ 32)
    (hage : P.FixieTenureThreshold + 1 < 2 ^ 8) :
    efHeader (emitFixed P st p)
      = FixieHeader.mk (P.FixieTenureThreshold + 1) 1 (P.targetSizeOf p)
  ∧ efHeapAt (emitFixed P st p) (st.position + fixieSizeInWords P.tbpw)
      = (P.copyAt p (st.position + fixieSizeInWords P.tbpw)
          (zeroRange st.heap st.position (fixieSizeInWords P.tbpw))
          (st.position + fixieSizeInWords P.tbpw)) ||| P.FixedMark
  ∧ (∀ i, i < ceiling (P.targetSizeOf p) P.tbpw →
      efHeapAt (emitFixed P st p)
        (st.position + fixieSizeInWords P.tbpw + P.targetSizeOf p + i) = 0)
  ∧ efNumber (emitFixed P st p) = st.position + fixieSizeInWords P.tbpw + 1
  ∧ efPosition (emitFixed P st p)
      = st.position + (fixieSizeInWords P.tbpw + P.targetSizeOf p
          + ceiling (P.targetSizeOf p) P.tbpw)
  ∧ (fixedCondB P st p = true →
      vnNumber (visitNew P st (some p))
        = st.position + fixieSizeInWords P.tbpw + 1) := by
  by_cases hcap : st.position + (fixieSizeInWords P.tbpw + P.targetSizeOf p
      + ceiling (P.targetSizeOf p) P.tbpw) < st.capacity
  · have hef : emitFixed P st p
        = Except.ok
            (FixieHeader.mk ((P.FixieTenureThreshold + 1) % 2 ^ 8) 1
              (P.targetSizeOf p % 2 ^ 32),
             st.position + fixieSizeInWords P.tbpw + 1,
             { st with
               heap := zeroRange
                 (Function.update
                   (P.copyAt p (st.position + fixieSizeInWords P.tbpw)
                     (zeroRange st.heap st.position (fixieSizeInWords P.tbpw)))
                   (st.position + fixieSizeInWords P.tbpw)
                   ((P.copyAt p (st.position + fixieSizeInWords P.tbpw)
                     (zeroRange st.heap st.position (fixieSizeInWords P.tbpw)))
                     (st.position + fixieSizeInWords P.tbpw) ||| P.FixedMark))
                 (st.position + fixieSizeInWords P.tbpw + P.targetSizeOf p)
                 (ceiling (P.targetSizeOf p) P.tbpw)
               position := st.position + (fixieSizeInWords P.tbpw + P.targetSizeOf p
                 + ceiling (P.targetSizeOf p) P.tbpw) }) := by
      unfold emitFixed
      rw [if_pos hcap]
    have hbody : ¬ (st.position + fixieSizeInWords P.tbpw + P.targetSizeOf p
        ≤ st.position + fixieSizeInWords P.tbpw
        ∧ st.position + fixieSizeInWords P.tbpw
          < st.position + fixieSizeInWords P.tbpw + P.targetSizeOf p
            + ceiling (P.targetSizeOf p) P.tbpw) := by
      rcases Nat.eq_zero_or_pos (P.targetSizeOf p) with hz | hpos
      · rw [hz, ceiling_zero]
        intro hand
        omega
      · intro hand
        omega
    refine ⟨?_, ?_, ?_, ?_, ?_, ?_⟩
    · rw [hef]
      show FixieHeader.mk ((P.FixieTenureThreshold + 1) % 2 ^ 8) 1
        (P.targetSizeOf p % 2 ^ 32) = _
      rw [Nat.mod_eq_of_lt hage, Nat.mod_eq_of_lt hsz]
    · rw [hef]
      show zeroRange _ _ _ _ = _
      unfold zeroRange
      rw [if_neg hbody, Function.update_same]
    · intro i hi
      rw [hef]
      show zeroRange _ _ _ _ = 0
      unfold zeroRange
      rw [if_pos ⟨Nat.le_add_right _ i, by omega⟩]
    · rw [hef]
      rfl
    · rw [hef]
      rfl
    · intro hfc
      rw [vnNumber_fixed P st p hfc hok, hef]
      rfl
  · exfalso
    have hef : emitFixed P st p = Except.error VMError.CapacityExceeded := by
      unfold emitFixed
      rw [if_neg hcap]
    rw [hef] at hok
    exact Bool.noConfusion hok

/-! ### Concrete visitor environments for the witnesses -/

/-- A small concrete environment: objects are names drawn from Nat,
    object 1 is a class object, object 7 the system class loader; every
    object is 2 target words; host and target words are 4 bytes; the
    static-table edge offset is 8 bytes; the transcoder leaves the heap
    unchanged. -/
def P0 : Params Nat :=
  { bpw := 4
    tbpw := 4
    ClassStaticTable := 8
    FixieTenureThreshold := 3
    FixedMark := 1
    notPointerMask := 3
    BootShift := 8
    targetSizeOf := fun _ => 2
    targetOffsetOf := fun _ off => off
    isClassObject := fun o => o == 1
    isSystemClassLoader := fun o => o == 7
    copyAt := fun _ _ h => h }

/-- A visitor state sitting on a static-table edge out of class object 1
    (offset 2 host words = byte offset 8 = ClassStaticTable). -/
def st3 : VisitorState Nat :=
  { currentObject := some 1
    currentNumber := 1
    currentOffset := 2
    heap := fun i => if i = 2 then 5 else 0
    map := fun _ => false
    position := 0
    capacity := 100 }

/-- A visitor state with no current edge (as after root()). -/
def st9 : VisitorState Nat :=
  { currentObject := Option.none
    currentNumber := 0
    currentOffset := 0
    heap := fun _ => 0
    map := fun _ => false
    position := 3
    capacity := 100 }

/-- C1 witness: a concrete successful fixed emission through the
    static-table edge of st3. -/
theorem fixed_classification_witness :
    vnOk (visitNew P0 st3 (some 1)) = true
  ∧ ((vnIsFixed (visitNew P0 st3 (some 1)) = true
      ↔ ((∃ co, st3.currentObject = some co ∧ P0.isClassObject co = true
            ∧ st3.currentOffset * P0.bpw = P0.ClassStaticTable)
         ∨ P0.isSystemClassLoader 1 = true))
     ∧ (vnIsFixed (visitNew P0 st3 (some 1)) = false →
         vnIsPlain (visitNew P0 st3 (some 1)) = true)) :=
  ⟨by decide, fixed_classification P0 st3 1 (by decide)⟩

/-- C2 witness: the concrete fixed emission of st3. -/
theorem fixed_emit_spec_witness :
    (efOk (emitFixed P0 st3 1) = true ∧ P0.targetSizeOf 1 < 2 ^ 32
     ∧ P0.FixieTenureThreshold + 1 < 2 ^ 8)
  ∧ (efHeader (emitFixed P0 st3 1)
        = FixieHeader.mk (P0.FixieTenureThreshold + 1) 1 (P0.targetSizeOf 1)
     ∧ efHeapAt (emitFixed P0 st3 1) (st3.position + fixieSizeInWords P0.tbpw)
        = (P0.copyAt 1 (st3.position + fixieSizeInWords P0.tbpw)
            (zeroRange st3.heap st3.position (fixieSizeInWords P0.tbpw))
            (st3.position + fixieSizeInWords P0.tbpw)) ||| P0.FixedMark
     ∧ (∀ i, i < ceiling (P0.targetSizeOf 1) P0.tbpw →
          efHeapAt (emitFixed P0 st3 1)
            (st3.position + fixieSizeInWords P0.tbpw + P0.targetSizeOf 1 + i) = 0)
     ∧ efNumber (emitFixed P0 st3 1) = st3.position + fixieSizeInWords P0.tbpw + 1
     ∧ efPosition (emitFixed P0 st3 1)
        = st3.position + (fixieSizeInWords P0.tbpw + P0.targetSizeOf 1
            + ceiling (P0.targetSizeOf 1) P0.tbpw)
     ∧ (fixedCondB P0 st3 1 = true →
          vnNumber (visitNew P0 st3 (some 1))
            = st3.position + fixieSizeInWords P0.tbpw + 1)) :=
  ⟨⟨by decide, by decide, by decide⟩,
   fixed_emit_spec P0 st3 1 (by decide) (by decide) (by decide)⟩

/-- C2 counterexample: in the concrete fixed emission of st3 the 32-bit
    size field holds 2, the object's target size in words, whereas the
    size in target bytes is 2 * 4 = 8, refuting the claim that the field
    holds the size in target bytes. -/
theorem fixie_size_field_not_bytes :
    vnIsFixed (visitNew P0 st3 (some 1)) = true
  ∧ (vnHeader (visitNew P0 st3 (some 1))).sizeField = P0.targetSizeOf 1
  ∧ (vnHeader (visitNew P0 st3 (some 1))).sizeField ≠ P0.targetSizeOf 1 * P0.tbpw :=
  ⟨by decide, by decide, by decide⟩

/-- C3 witness: a concrete patch through the edge of st3, storing
    9 | ((5 & ~3) << 8) = 265 at slot 2 and setting the bitmap bit. -/
theorem backpatch_spec_witness :
    (st3.currentObject = some 1
     ∧ st3.heap (edgeSlot P0 st3 1) &&& P0.notPointerMask < 2 ^ 32
     ∧ (st3.heap (edgeSlot P0 st3 1) &&& P0.notPointerMask) <<< P0.BootShift < 2 ^ 32
     ∧ (9 : Nat) < 2 ^ 32
     ∧ st3.map (edgeSlot P0 st3 1) = false)
  ∧ ((visit P0 st3 9).heap (edgeSlot P0 st3 1)
        = 9 ||| ((st3.heap (edgeSlot P0 st3 1) &&& P0.notPointerMask) <<< P0.BootShift)
     ∧ ((visit P0 st3 9).map (edgeSlot P0 st3 1) = true
        ↔ 9 ||| ((st3.heap (edgeSlot P0 st3 1) &&& P0.notPointerMask) <<< P0.BootShift)
            ≠ 0)
     ∧ visitOld P0 st3 9 = visit P0 st3 9) :=
  ⟨⟨rfl, by decide, by decide, by decide, rfl⟩,
   backpatch_spec P0 st3 9 1 rfl (by decide) (by decide) (by decide) rfl⟩

/-- C9 witness: a concrete plain emission from st9 (no current edge,
    object 5 is no system class loader). -/
theorem plain_emit_spec_witness :
    fixedCondB P0 st9 5 = false
  ∧ ((vnOk (visitNew P0 st9 (some 5)) = true →
        st9.position + P0.targetSizeOf 5 < st9.capacity
        ∧ vnNumber (visitNew P0 st9 (some 5)) = st9.position + 1
        ∧ vnPosition (visitNew P0 st9 (some 5)) = st9.position + P0.targetSizeOf 5)
     ∧ (¬ st9.position + P0.targetSizeOf 5 < st9.capacity →
        visitNew P0 st9 (some 5) = Except.error VMError.CapacityExceeded)) :=
  ⟨by decide, plain_emit_spec P0 st9 5 (by decide)⟩

/-! ### C8: the heap-constant pass -/

theorem markLocs_mono (ls : List PatchListener) :
    ∀ (cm : Nat → Bool) (x : Nat), cm x = true → markLocs ls cm x = true := by
  induction ls with
  | nil => intro cm x h; exact h
  | cons l ls ih =>
    intro cm x h
    show markLocs ls (Function.update cm l.loc true) x = true
    refine ih _ x ?_
    by_cases hx : x = l.loc
    · rw [hx, Function.update_same]
    · rw [Function.update_noteq hx]
      exact h

theorem markLocs_marks (ls : List PatchListener) :
    ∀ (cm : Nat → Bool) (l : PatchListener), l ∈ ls → markLocs ls cm l.loc = true := by
  induction ls with
  | nil => intro cm l h; exact absurd h (List.not_mem_nil l)
  | cons a ls ih =>
    intro cm l h
    rcases List.mem_cons.mp h with rfl | h2
    · show markLocs ls (Function.update cm l.loc true) l.loc = true
      exact markLocs_mono ls _ l.loc (Function.update_same _ _ _)
    · exact ih _ l h2

theorem updateConstants_mark_mono (tbits bho bfc : Nat) (cs : List HeapConst) :
    ∀ (cm : Nat → Bool) (ps : List (Nat × Nat)) (cm2 : Nat → Bool) (x : Nat),
      updateConstants tbits bho bfc cs cm = Except.ok (ps, cm2) →
      cm x = true → cm2 x = true := by
  induction cs with
  | nil => intro cm ps cm2 x h hx; cases h; exact hx
  | cons c cs ih =>
    intro cm ps cm2 x h hx
    unfold updateConstants at h
    split at h
    next hpos =>
      split at h
      next ps2 cm3 hrec =>
        cases h
        exact ih _ ps2 _ x hrec (markLocs_mono _ _ x hx)
      next => cases h
    next => cases h

theorem updateConstants_ok_iff (tbits bho bfc : Nat) (cs : List HeapConst) :
    ∀ cm : Nat → Bool,
      (ucOk (updateConstants tbits bho bfc cs cm) = true ↔ ∀ c ∈ cs, 0 < c.target) := by
  induction cs with
  | nil =>
    intro cm
    exact ⟨fun _ c hc => absurd hc (List.not_mem_nil c), fun _ => rfl⟩
  | cons c cs ih =>
    intro cm
    unfold updateConstants
    split
    next hpos =>
      cases hrec : updateConstants tbits bho bfc cs (markLocs c.listeners cm) with
      | ok pr =>
        obtain ⟨ps2, cm2⟩ := pr
        constructor
        · intro _ d hd
          rcases List.mem_cons.mp hd with rfl | hd2
          · exact hpos
          · exact ((ih _).mp (by rw [hrec]; rfl)) d hd2
        · intro _; rfl
      | error e =>
        constructor
        · intro hfalse; exact Bool.noConfusion hfalse
        · intro hall
          exfalso
          have hok2 := (ih (markLocs c.listeners cm)).mpr
            (fun d hd => hall d (List.mem_cons_of_mem _ hd))
          rw [hrec] at hok2
          exact Bool.noConfusion hok2
    next hpos =>
      constructor
      · intro hfalse; exact Bool.noConfusion hfalse
      · intro hall
        exact absurd (hall c (List.mem_cons_self _ _)) hpos

theorem updateConstants_patches (tbits bho bfc : Nat) (cs : List HeapConst) :
    ∀ (cm : Nat → Bool) (ps : List (Nat × Nat)) (cm2 : Nat → Bool),
      updateConstants tbits bho bfc cs cm = Except.ok (ps, cm2) →
      ps = cs.flatMap (fun c => c.listeners.map
            (fun l => (l.loc, constantPatch tbits bho bfc c.target l.flat))) := by
  induction cs with
  | nil => intro cm ps cm2 h; cases h; rfl
  | cons c cs ih =>
    intro cm ps cm2 h
    unfold updateConstants at h
    split at h
    next hpos =>
      split at h
      next ps2 cm3 hrec =>
        cases h
        rw [List.flatMap_cons, ih _ ps2 _ hrec]
      next => cases h
    next => cases h

theorem updateConstants_marks (tbits bho bfc : Nat) (cs : List HeapConst) :
    ∀ (cm : Nat → Bool) (ps : List (Nat × Nat)) (cm2 : Nat → Bool),
      updateConstants tbits bho bfc cs cm = Except.ok (ps, cm2) →
      ∀ c ∈ cs, ∀ l ∈ c.listeners, cm2 l.loc = true := by
  induction cs with
  | nil => intro cm ps cm2 h c hc; exact absurd hc (List.not_mem_nil c)
  | cons c0 cs ih =>
    intro cm ps cm2 h c hc l hl
    unfold updateConstants at h
    split at h
    next hpos =>
      split at h
      next ps2 cm3 hrec =>
        cases h
        rcases List.mem_cons.mp hc with rfl | hc2
        · exact updateConstants_mark_mono tbits bho bfc cs _ ps2 _ l.loc hrec
            (markLocs_marks _ _ l hl)
        · exact ih _ ps2 _ hrec c hc2 l hl
      next => cases h
    next => cases h

/-- C8: the heap-constant pass fails with an InvariantViolation exactly
    when some deferred constant's looked-up object number is zero; on
    success every listener's immediate is patched to
    number | BootHeapOffset, additionally ORed with BootFlatConstant for
    a flat listener (constantPatch, which agrees with the untruncated
    formula whenever it fits the target word), and the code-bitmap bit
    of every patched location is set. -/
theorem update_constants_spec (tbits bho bfc : Nat) (cs : List HeapConst)
    (cm : Nat → Bool) :
    (ucOk (updateConstants tbits bho bfc cs cm) = true ↔ ∀ c ∈ cs, 0 < c.target)
  ∧ (ucOk (updateConstants tbits bho bfc cs cm) = true →
      ucPatches (updateConstants tbits bho bfc cs cm)
        = cs.flatMap (fun c => c.listeners.map
            (fun l => (l.loc, constantPatch tbits bho bfc c.target l.flat)))
      ∧ ∀ c ∈ cs, ∀ l ∈ c.listeners,
          ucMark (updateConstants tbits bho bfc cs cm) l.loc = true)
  ∧ (∀ (tg : Nat) (fl : Bool),
      (tg ||| bho) ||| (if fl then bfc else 0) < 2 ^ tbits →
      constantPatch tbits bho bfc tg fl = (tg ||| bho) ||| (if fl then bfc else 0)) := by
  refine ⟨updateConstants_ok_iff tbits bho bfc cs cm, ?_, ?_⟩
  · intro hok
    cases hres : updateConstants tbits bho bfc cs cm with
    | error e =>
      rw [hres] at hok
      exact Bool.noConfusion hok
    | ok pr =>
      obtain ⟨ps, cm2⟩ := pr
      refine ⟨?_, ?_⟩
      · exact updateConstants_patches tbits bho bfc cs cm ps cm2 hres
      · intro c hc l hl
        exact updateConstants_marks tbits bho bfc cs cm ps cm2 hres c hc l hl
  · intro tg fl hlt
    unfold constantPatch
    exact Nat.mod_eq_of_lt hlt

/-- C8 witness: two constants with numbers 5 and 1, three listeners, on
    a 32-bit target with BootHeapOffset 2048 and BootFlatConstant 1024. -/
theorem update_constants_spec_witness :
    (ucOk (updateConstants 32 2048 1024
        [HeapConst.mk 5 [PatchListener.mk true 12, PatchListener.mk false 20],
         HeapConst.mk 1 [PatchListener.mk false 4]] (fun _ => false)) = true
      ↔ ∀ c ∈ [HeapConst.mk 5 [PatchListener.mk true 12, PatchListener.mk false 20],
               HeapConst.mk 1 [PatchListener.mk false 4]], 0 < c.target)
  ∧ (ucOk (updateConstants 32 2048 1024
        [HeapConst.mk 5 [PatchListener.mk true 12, PatchListener.mk false 20],
         HeapConst.mk 1 [PatchListener.mk false 4]] (fun _ => false)) = true →
      ucPatches (updateConstants 32 2048 1024
        [HeapConst.mk 5 [PatchListener.mk true 12, PatchListener.mk false 20],
         HeapConst.mk 1 [PatchListener.mk false 4]] (fun _ => false))
        = ([HeapConst.mk 5 [PatchListener.mk true 12, PatchListener.mk false 20],
            HeapConst.mk 1 [PatchListener.mk false 4]]).flatMap
            (fun c => c.listeners.map
              (fun l => (l.loc, constantPatch 32 2048 1024 c.target l.flat)))
      ∧ ∀ c ∈ [HeapConst.mk 5 [PatchListener.mk true 12, PatchListener.mk false 20],
               HeapConst.mk 1 [PatchListener.mk false 4]], ∀ l ∈ c.listeners,
          ucMark (updateConstants 32 2048 1024
            [HeapConst.mk 5 [PatchListener.mk true 12, PatchListener.mk false 20],
             HeapConst.mk 1 [PatchListener.mk false 4]] (fun _ => false)) l.loc = true)
  ∧ (∀ (tg : Nat) (fl : Bool),
      (tg ||| 2048) ||| (if fl then 1024 else 0) < 2 ^ 32 →
      constantPatch 32 2048 1024 tg fl = (tg ||| 2048) ||| (if fl then 1024 else 0)) :=
  update_constants_spec 32 2048 1024
    [HeapConst.mk 5 [PatchListener.mk true 12, PatchListener.mk false 20],
     HeapConst.mk 1 [PatchListener.mk false 4]] (fun _ => false)

end Avian
